import Mathlib

/- Shallow embedding of src/src/services/ledger/merkletree/tree.rs from the
   indy-sdk ledger service: the Merkle tree data type, its constructors and
   structural metrics, the canonical four-field codec, and the two explicit
   stack leaf iterators (borrowing and consuming). Digests (Vec of u8 in the
   source) are modelled as lists of naturals; TreeLeafData = String as in the
   source. -/

namespace Merkle

/-- TreeLeafData is String in the source (`pub type TreeLeafData = String`). -/
abbrev TreeLeafData := String

/-- Binary Tree where leaves hold a stand-alone value (`enum Tree`). -/
inductive Tree where
| Empty (hash : List Nat)
| Leaf (hash : List Nat) (value : TreeLeafData)
| Node (hash : List Nat) (left : Tree) (right : Tree)
deriving DecidableEq

/-- The hash capability consumed by `Tree::new_leaf` (the `Algorithm` /
`HashUtils` collaborator): only its leaf-hashing operation is needed here. -/
structure Algorithm where
  hash_leaf : TreeLeafData → List Nat

/-- Create an empty tree (`Tree::empty`). -/
def Tree.empty (hash : List Nat) : Tree := .Empty hash

/-- Create a new tree (`Tree::new`): wraps a digest and a value into a Leaf. -/
def Tree.new (hash : List Nat) (value : TreeLeafData) : Tree := .Leaf hash value

/-- Create a new leaf (`Tree::new_leaf`): hashes the value with the
algorithm's leaf hash and delegates to `Tree::new`. -/
def Tree.new_leaf (algo : Algorithm) (value : TreeLeafData) : Tree :=
  Tree.new (algo.hash_leaf value) value

/-- Returns the stored digest of the root node (`Tree::hash`). -/
def Tree.hash : Tree → List Nat
| .Empty h => h
| .Leaf h _ => h
| .Node h _ _ => h

/-- Height of the tree (`Tree::get_height`): 0 at Empty and Leaf, one plus
the max of the children at Node. -/
def Tree.get_height : Tree → Nat
| .Empty _ => 0
| .Node _ left right => 1 + max left.get_height right.get_height
| .Leaf _ _ => 0

/-- Leaf count of the tree (`Tree::get_count`): 0 at Empty, sum of the
children at Node, 1 at Leaf. -/
def Tree.get_count : Tree → Nat
| .Empty _ => 0
| .Node _ left right => left.get_count + right.get_count
| .Leaf _ _ => 1

/-- The left-to-right sequence of leaf values of a tree: the reference
enumeration the traversal claims are measured against. -/
def Tree.leaves : Tree → List TreeLeafData
| .Empty _ => []
| .Leaf _ v => [v]
| .Node _ left right => left.leaves ++ right.leaves

/-- Structural size of a tree (number of constructors); used as a
termination measure for the iterator runs. -/
def Tree.size : Tree → Nat
| .Empty _ => 1
| .Leaf _ _ => 1
| .Node _ left right => 1 + left.size + right.size

theorem Tree.count_eq_leaves_length (t : Tree) : t.get_count = t.leaves.length := by
  induction t with
  | Empty h => rfl
  | Leaf h v => rfl
  | Node h l r ihl ihr => simp [Tree.get_count, Tree.leaves, ihl, ihr]

/-- C4: get_height is 0 on Empty and Leaf and 1 + max of the children on
Node, and it is 0 exactly on the Empty and Leaf variants. -/
theorem C4_get_height_spec :
    (∀ h : List Nat, (Tree.Empty h).get_height = 0)
    ∧ (∀ (h : List Nat) (v : TreeLeafData), (Tree.Leaf h v).get_height = 0)
    ∧ (∀ (h : List Nat) (l r : Tree),
        (Tree.Node h l r).get_height = 1 + max l.get_height r.get_height)
    ∧ (∀ t : Tree, t.get_height = 0 ↔
        ((∃ h, t = Tree.Empty h) ∨ (∃ h v, t = Tree.Leaf h v))) := by
  refine ⟨fun h => rfl, fun h v => rfl, fun h l r => rfl, fun t => ?_⟩
  cases t with
  | Empty h => simp [Tree.get_height]
  | Leaf h v => simp [Tree.get_height]
  | Node h l r => simp [Tree.get_height]

/-- C5: get_count is 0 on Empty, 1 on Leaf, the sum of the children's counts
on Node, and equals the number of leaf values reachable in the tree. -/
theorem C5_get_count_spec :
    (∀ h : List Nat, (Tree.Empty h).get_count = 0)
    ∧ (∀ (h : List Nat) (v : TreeLeafData), (Tree.Leaf h v).get_count = 1)
    ∧ (∀ (h : List Nat) (l r : Tree),
        (Tree.Node h l r).get_count = l.get_count + r.get_count)
    ∧ (∀ t : Tree, t.get_count = t.leaves.length) :=
  ⟨fun _ => rfl, fun _ _ => rfl, fun _ _ _ => rfl, Tree.count_eq_leaves_length⟩

/-- C6: new_leaf stores the digest computed by the hash capability's leaf
hash together with the unchanged input value. -/
theorem C6_new_leaf_spec :
    ∀ (algo : Algorithm) (value : TreeLeafData),
      Tree.new_leaf algo value = Tree.Leaf (algo.hash_leaf value) value ∧
      (Tree.new_leaf algo value).hash = algo.hash_leaf value := by
  intro algo value
  exact ⟨rfl, rfl⟩

/- Canonical codec. The Encodable impl emits a struct of exactly four named,
   positional fields through the serializer; the Decodable impl reads the
   "type" field, then "hash", then branches on the tag, reading "left" and
   "right" (or "value") as needed. Wire models the values a rustc_serialize
   backend carries: strings, byte arrays, and field records. -/

mutual

/-- Wire value produced by the serializer backend: a string, a byte
sequence, or a record of named positional fields. -/
inductive Wire where
| str (s : String) : Wire
| bytes (b : List Nat) : Wire
| record (fields : Fields) : Wire

/-- Ordered field list of a wire record; each field has a name and a wire
value (models the emit_struct_field sequence). -/
inductive Fields where
| nil : Fields
| cons (name : String) (w : Wire) (tl : Fields) : Fields

end

/-- Number of fields of a field list. -/
def Fields.len : Fields → Nat
| .nil => 0
| .cons _ _ tl => 1 + tl.len

/-- Positional access into a field list. -/
def Fields.get : Fields → Nat → Option (String × Wire)
| .nil, _ => none
| .cons n w _, 0 => some (n, w)
| .cons _ _ tl, k + 1 => tl.get k

/-- Field lookup by name (models read_struct_field on a name-addressed
backend); a missing field is a decode error. -/
def findField : Fields → String → Except String Wire
| .nil, n => .error ("missing field " ++ n)
| .cons m w tl, n => if m = n then .ok w else findField tl n

/-- Read a wire value as a string (models read_str). -/
def asStr : Wire → Except String String
| .str s => .ok s
| .bytes _ => .error "expected string"
| .record _ => .error "expected string"

/-- Read a wire value as a byte sequence (models Vec of u8 decode). -/
def asBytes : Wire → Except String (List Nat)
| .bytes b => .ok b
| .str _ => .error "expected bytes"
| .record _ => .error "expected bytes"

/-- The variant tag the encoder writes into field 0. -/
def Tree.tag : Tree → String
| .Empty _ => "empty"
| .Leaf _ _ => "leaf"
| .Node _ _ _ => "node"

/-- Encodable impl for Tree: a record of exactly four fields, with
empty-string placeholders in the unused slots. -/
def Tree.encode : Tree → Wire
| .Empty h =>
    .record (.cons "type" (.str "empty") (.cons "hash" (.bytes h)
      (.cons "" (.str "") (.cons "" (.str "") .nil))))
| .Node h left right =>
    .record (.cons "type" (.str "node") (.cons "hash" (.bytes h)
      (.cons "left" left.encode (.cons "right" right.encode .nil))))
| .Leaf h v =>
    .record (.cons "type" (.str "leaf") (.cons "hash" (.bytes h)
      (.cons "value" (.str v) (.cons "" (.str "") .nil))))

theorem findField_sizeOf : ∀ (fs : Fields) (n : String) (w : Wire),
    findField fs n = .ok w → sizeOf w < sizeOf fs
| .nil, n, w, h => by simp [findField] at h
| .cons m v tl, n, w, h => by
    by_cases hm : m = n
    · simp [findField, hm] at h
      subst h
      simp
      omega
    · simp [findField, hm] at h
      have := findField_sizeOf tl n w h
      simp
      omega

/-- Decodable impl for Tree: read the "type" field, then "hash", then branch
on the tag; any other tag is the "bad node type" error. -/
def Tree.decode : Wire → Except String Tree
| .str _ => .error "expected a node record"
| .bytes _ => .error "expected a node record"
| .record fs =>
  match findField fs "type" with
  | .error e => .error e
  | .ok tw =>
    match asStr tw with
    | .error e => .error e
    | .ok nodetype =>
      match findField fs "hash" with
      | .error e => .error e
      | .ok hw =>
        match asBytes hw with
        | .error e => .error e
        | .ok hash =>
          if nodetype = "empty" then .ok (.Empty hash)
          else if nodetype = "node" then
            match hl : findField fs "left" with
            | .error e => .error e
            | .ok lw =>
              match Tree.decode lw with
              | .error e => .error e
              | .ok left =>
                match hr : findField fs "right" with
                | .error e => .error e
                | .ok rw =>
                  match Tree.decode rw with
                  | .error e => .error e
                  | .ok right => .ok (.Node hash left right)
          else if nodetype = "leaf" then
            match findField fs "value" with
            | .error e => .error e
            | .ok vw =>
              match asStr vw with
              | .error e => .error e
              | .ok value => .ok (.Leaf hash value)
          else .error "bad node type"
termination_by w => sizeOf w
decreasing_by
  · have := findField_sizeOf _ _ _ hl
    simp
    omega
  · have := findField_sizeOf _ _ _ hr
    simp
    omega

theorem decode_encode (t : Tree) : Tree.decode t.encode = .ok t := by
  induction t with
  | Empty h => simp [Tree.encode, Tree.decode, findField, asStr, asBytes]
  | Leaf h v => simp [Tree.encode, Tree.decode, findField, asStr, asBytes]
  | Node h l r ihl ihr =>
    simp [Tree.encode, Tree.decode, findField, asStr, asBytes, ihl, ihr]

/-- C2: decoding the encoding of any tree succeeds and returns a tree
structurally equal to the original. -/
theorem C2_decode_encode_roundtrip : ∀ t : Tree, Tree.decode t.encode = .ok t :=
  decode_encode

/-- Whether a decode result carries a tree. -/
def resultIsOk : Except String Tree → Bool
| .ok _ => true
| .error _ => false

/-- C3: a record whose type field is any string other than "empty", "node",
"leaf" decodes to an error, never to a tree. -/
theorem C3_bad_tag_decode_fails :
    ∀ (fs : Fields) (s : String),
      findField fs "type" = .ok (.str s) →
      s ≠ "empty" → s ≠ "node" → s ≠ "leaf" →
      resultIsOk (Tree.decode (.record fs)) = false := by
  intro fs s htype h1 h2 h3
  rw [Tree.decode]
  rw [htype]
  simp only [asStr]
  cases hh : findField fs "hash" with
  | error e => simp [resultIsOk]
  | ok hw =>
    cases hw with
    | str s2 => simp [asBytes, resultIsOk]
    | record fs2 => simp [asBytes, resultIsOk]
    | bytes b => simp [asBytes, h1, h2, h3, resultIsOk]

/-- A concrete malformed record used as the witness input for C3. -/
def badRecordFields : Fields :=
  .cons "type" (.str "bogus") (.cons "hash" (.bytes [1, 2]) .nil)

/-- Witness for C3: the hypotheses hold at the concrete malformed record and
its decode indeed carries no tree. -/
theorem C3_bad_tag_decode_fails_witness :
    findField badRecordFields "type" = .ok (.str "bogus") ∧
    resultIsOk (Tree.decode (.record badRecordFields)) = false :=
  ⟨by simp [badRecordFields, findField],
   C3_bad_tag_decode_fails badRecordFields "bogus"
     (by simp [badRecordFields, findField])
     (by simp) (by simp) (by simp)⟩

/-- How many fields a wire record carries. -/
def Wire.numFields : Wire → Nat
| .record fs => fs.len
| .str _ => 0
| .bytes _ => 0

/-- Positional field access on a wire record. -/
def Wire.fieldAt : Wire → Nat → Option (String × Wire)
| .record fs, i => fs.get i
| .str _, _ => none
| .bytes _, _ => none

/-- C7: the encoding of any tree is a record of exactly four positional
fields: field 0 the variant tag, field 1 the digest bytes, fields 2 and 3
the value or recursively encoded subtrees where applicable, and every
unused slot the empty-string placeholder. -/
theorem C7_encode_shape :
    (∀ t : Tree, (Tree.encode t).numFields = 4
      ∧ (Tree.encode t).fieldAt 0 = some ("type", .str t.tag)
      ∧ (Tree.encode t).fieldAt 1 = some ("hash", .bytes t.hash))
    ∧ (∀ h : List Nat,
        (Tree.encode (.Empty h)).fieldAt 2 = some ("", .str "")
        ∧ (Tree.encode (.Empty h)).fieldAt 3 = some ("", .str ""))
    ∧ (∀ (h : List Nat) (v : TreeLeafData),
        (Tree.encode (.Leaf h v)).fieldAt 2 = some ("value", .str v)
        ∧ (Tree.encode (.Leaf h v)).fieldAt 3 = some ("", .str ""))
    ∧ (∀ (h : List Nat) (l r : Tree),
        (Tree.encode (.Node h l r)).fieldAt 2 = some ("left", l.encode)
        ∧ (Tree.encode (.Node h l r)).fieldAt 3 = some ("right", r.encode)) := by
  refine ⟨fun t => ?_, fun h => ⟨rfl, rfl⟩, fun h v => ⟨rfl, rfl⟩,
    fun h l r => ⟨rfl, rfl⟩⟩
  cases t with
  | Empty h => exact ⟨rfl, rfl, rfl⟩
  | Leaf h v => exact ⟨rfl, rfl, rfl⟩
  | Node h l r => exact ⟨rfl, rfl, rfl⟩

/- Leaf traversal. LeavesIterator is the borrowing iterator (references
   modelled as values), LeavesIntoIterator the consuming one; both hold a
   current value and the pending right-sibling stack. Rust's Vec push/pop at
   the back is modelled with the list head as the stack top. -/

/-- Borrowing iterator state (`struct LeavesIterator`). -/
structure LeavesIterator where
  current_value : Option TreeLeafData
  right_nodes : List Tree
deriving DecidableEq

/-- The add_left loop of the borrowing iterator: while at a Node, push the
right child and descend left; at a Leaf capture its value, at Empty clear
the current value. -/
def LeavesIterator.add_left : LeavesIterator → Tree → LeavesIterator
| it, .Empty _ => { current_value := none, right_nodes := it.right_nodes }
| it, .Node _ left right =>
    LeavesIterator.add_left
      { current_value := it.current_value, right_nodes := right :: it.right_nodes } left
| it, .Leaf _ v => { current_value := some v, right_nodes := it.right_nodes }

/-- LeavesIterator::new: start from an empty state and descend left from
the root. -/
def LeavesIterator.new (root : Tree) : LeavesIterator :=
  LeavesIterator.add_left { current_value := none, right_nodes := [] } root

/-- Tree::iter returns the borrowing iterator. -/
def Tree.iter (t : Tree) : LeavesIterator := LeavesIterator.new t

/-- One step of the borrowing iterator (`Iterator::next`): take the current
value, then pop a pending right sibling (if any) and descend left into it. -/
def LeavesIterator.next (it : LeavesIterator) : Option TreeLeafData × LeavesIterator :=
  match it.right_nodes with
  | [] => (it.current_value, { current_value := none, right_nodes := [] })
  | rest :: tl =>
      (it.current_value, LeavesIterator.add_left { current_value := none, right_nodes := tl } rest)

/-- Total structural size of the trees on a pending stack. -/
def stackSize : List Tree → Nat
| [] => 0
| t :: tl => t.size + stackSize tl

/-- Weight of the current-value slot. -/
def curWeight : Option TreeLeafData → Nat
| none => 0
| some _ => 1

/-- Termination measure of an iterator state. -/
def LeavesIterator.measure (it : LeavesIterator) : Nat :=
  stackSize it.right_nodes + curWeight it.current_value

theorem LeavesIterator.add_left_measure (t : Tree) :
    ∀ it : LeavesIterator,
      (it.add_left t).measure ≤ stackSize it.right_nodes + t.size := by
  induction t with
  | Empty h =>
    intro it
    simp [LeavesIterator.add_left, LeavesIterator.measure, curWeight, Tree.size]
  | Leaf h v =>
    intro it
    simp [LeavesIterator.add_left, LeavesIterator.measure, curWeight, Tree.size]
  | Node h l r ihl ihr =>
    intro it
    have hx := ihl { current_value := it.current_value, right_nodes := r :: it.right_nodes }
    simp [LeavesIterator.add_left, stackSize, Tree.size] at hx ⊢
    omega

theorem LeavesIterator.next_fst (it : LeavesIterator) :
    it.next.1 = it.current_value := by
  cases h : it.right_nodes <;> simp [LeavesIterator.next, h]

theorem LeavesIterator.next_measure_lt (it : LeavesIterator) (v : TreeLeafData)
    (h : it.current_value = some v) : it.next.2.measure < it.measure := by
  cases hs : it.right_nodes with
  | nil =>
    simp [LeavesIterator.next, hs, LeavesIterator.measure, curWeight, h, stackSize]
  | cons rest tl =>
    have hb := LeavesIterator.add_left_measure rest
      { current_value := none, right_nodes := tl }
    simp [LeavesIterator.next, hs, LeavesIterator.measure, curWeight, h, stackSize] at hb ⊢
    omega

/-- Values collected from the iterator by the standard iterator-consumption
protocol: call next repeatedly and stop at the first none. -/
def LeavesIterator.collect (it : LeavesIterator) : List TreeLeafData :=
  match h : it.next with
  | (none, _) => []
  | (some v, it2) => v :: it2.collect
termination_by it.measure
decreasing_by
  have hv : it.current_value = some v := by
    have := LeavesIterator.next_fst it
    rw [h] at this
    exact this.symm
  have hlt := LeavesIterator.next_measure_lt it v hv
  rw [h] at hlt
  exact hlt

theorem LeavesIterator.collect_none (it : LeavesIterator)
    (h : it.current_value = none) : it.collect = [] := by
  rw [LeavesIterator.collect]
  split
  · rfl
  · rename_i v it2 hx
    have := LeavesIterator.next_fst it
    rw [hx, h] at this
    simp at this

theorem LeavesIterator.collect_some (it : LeavesIterator) (v : TreeLeafData)
    (h : it.current_value = some v) : it.collect = v :: it.next.2.collect := by
  rw [LeavesIterator.collect]
  split
  · rename_i snd hx
    have := LeavesIterator.next_fst it
    rw [hx, h] at this
    simp at this
  · rename_i v2 it2 hx
    have hfst := LeavesIterator.next_fst it
    rw [hx, h] at hfst
    simp at hfst
    rw [hx, hfst]

/-- Consuming iterator state (`struct LeavesIntoIterator`): owned values
instead of references, same fields. -/
structure LeavesIntoIterator where
  current_value : Option TreeLeafData
  right_nodes : List Tree
deriving DecidableEq

/-- The add_left loop of the consuming iterator. -/
def LeavesIntoIterator.add_left : LeavesIntoIterator → Tree → LeavesIntoIterator
| it, .Empty _ => { current_value := none, right_nodes := it.right_nodes }
| it, .Node _ left right =>
    LeavesIntoIterator.add_left
      { current_value := it.current_value, right_nodes := right :: it.right_nodes } left
| it, .Leaf _ v => { current_value := some v, right_nodes := it.right_nodes }

/-- LeavesIntoIterator::new. -/
def LeavesIntoIterator.new (root : Tree) : LeavesIntoIterator :=
  LeavesIntoIterator.add_left { current_value := none, right_nodes := [] } root

/-- IntoIterator for Tree: into_iter hands the owned tree to
LeavesIntoIterator::new. -/
def Tree.into_iter (t : Tree) : LeavesIntoIterator := LeavesIntoIterator.new t

/-- One step of the consuming iterator. -/
def LeavesIntoIterator.next (it : LeavesIntoIterator) :
    Option TreeLeafData × LeavesIntoIterator :=
  match it.right_nodes with
  | [] => (it.current_value, { current_value := none, right_nodes := [] })
  | rest :: tl =>
      (it.current_value,
        LeavesIntoIterator.add_left { current_value := none, right_nodes := tl } rest)

/-- Termination measure of a consuming-iterator state. -/
def LeavesIntoIterator.measure (it : LeavesIntoIterator) : Nat :=
  stackSize it.right_nodes + curWeight it.current_value

/-- The borrowing-iterator state a consuming-iterator state corresponds to
(same current value, same pending stack). -/
def LeavesIntoIterator.view (it : LeavesIntoIterator) : LeavesIterator :=
  { current_value := it.current_value, right_nodes := it.right_nodes }

theorem LeavesIntoIterator.view_add_left (t : Tree) :
    ∀ it : LeavesIntoIterator, (it.add_left t).view = it.view.add_left t := by
  induction t with
  | Empty h =>
    intro it
    simp [LeavesIntoIterator.add_left, LeavesIterator.add_left, LeavesIntoIterator.view]
  | Leaf h v =>
    intro it
    simp [LeavesIntoIterator.add_left, LeavesIterator.add_left, LeavesIntoIterator.view]
  | Node h l r ihl ihr =>
    intro it
    have hx := ihl { current_value := it.current_value, right_nodes := r :: it.right_nodes }
    simpa [LeavesIntoIterator.add_left, LeavesIterator.add_left,
      LeavesIntoIterator.view] using hx

theorem LeavesIntoIterator.view_next (it : LeavesIntoIterator) :
    it.next.1 = it.view.next.1 ∧ it.next.2.view = it.view.next.2 := by
  cases hs : it.right_nodes with
  | nil =>
    simp [LeavesIntoIterator.next, LeavesIterator.next, LeavesIntoIterator.view, hs]
  | cons rest tl =>
    simp [LeavesIntoIterator.next, LeavesIterator.next, LeavesIntoIterator.view, hs]
    exact LeavesIntoIterator.view_add_left rest { current_value := none, right_nodes := tl }

theorem LeavesIntoIterator.view_measure (it : LeavesIntoIterator) :
    it.view.measure = it.measure := rfl

/-- Values collected from the consuming iterator by the standard
iterator-consumption protocol. -/
def LeavesIntoIterator.collect (it : LeavesIntoIterator) : List TreeLeafData :=
  match h : it.next with
  | (none, _) => []
  | (some v, it2) => v :: it2.collect
termination_by it.measure
decreasing_by
  have hv : it.view.current_value = some v := by
    have h1 := (LeavesIntoIterator.view_next it).1
    have h2 := LeavesIterator.next_fst it.view
    rw [h] at h1
    rw [← h1] at h2
    exact h2.symm
  have hlt := LeavesIterator.next_measure_lt it.view v hv
  have h2 := (LeavesIntoIterator.view_next it).2
  rw [h] at h2
  rw [← h2, LeavesIntoIterator.view_measure, LeavesIntoIterator.view_measure] at hlt
  exact hlt

theorem LeavesIntoIterator.into_next_fst (it : LeavesIntoIterator) :
    it.next.1 = it.current_value := by
  cases h : it.right_nodes <;> simp [LeavesIntoIterator.next, h]

theorem LeavesIntoIterator.view_current (it : LeavesIntoIterator) :
    it.view.current_value = it.current_value := rfl

theorem LeavesIntoIterator.collect_view :
    ∀ (n : Nat) (it : LeavesIntoIterator), it.measure ≤ n →
      it.collect = it.view.collect := by
  intro n
  induction n with
  | zero =>
    intro it hle
    have hcur : it.current_value = none := by
      cases hc : it.current_value with
      | none => rfl
      | some v =>
        exfalso
        simp [LeavesIntoIterator.measure, curWeight, hc] at hle
    rw [LeavesIntoIterator.collect]
    split
    · rw [LeavesIterator.collect_none it.view hcur]
    · rename_i v it2 hx
      have h1 := LeavesIntoIterator.into_next_fst it
      rw [hx, hcur] at h1
      simp at h1
  | succ n ih =>
    intro it hle
    cases hc : it.current_value with
    | none =>
      rw [LeavesIntoIterator.collect]
      split
      · rw [LeavesIterator.collect_none it.view hc]
      · rename_i v it2 hx
        have h1 := LeavesIntoIterator.into_next_fst it
        rw [hx, hc] at h1
        simp at h1
    | some v =>
      have hvv : it.view.current_value = some v := hc
      have hlt := LeavesIterator.next_measure_lt it.view v hvv
      rw [LeavesIntoIterator.view_measure] at hlt
      have hnext := LeavesIntoIterator.view_next it
      rw [LeavesIntoIterator.collect]
      split
      · rename_i snd hx
        have h1 := LeavesIntoIterator.into_next_fst it
        rw [hx, hc] at h1
        simp at h1
      · rename_i v2 it2 hx
        have h1 := LeavesIntoIterator.into_next_fst it
        rw [hx, hc] at h1
        simp at h1
        subst h1
        rw [hx] at hnext
        have hm2 : it2.measure ≤ n := by
          have hv2 : it2.view.measure < Nat.succ n := by
            rw [hnext.2]
            exact lt_of_lt_of_le hlt hle
          rw [LeavesIntoIterator.view_measure] at hv2
          omega
        rw [ih it2 hm2, LeavesIterator.collect_some it.view v2 hvv, hnext.2]

/-- C8: for every tree, the consuming traversal yields the same sequence of
leaf values (same order, same length) as the borrowing traversal. -/
theorem C8_into_iter_matches_iter :
    ∀ t : Tree, (Tree.into_iter t).collect = (Tree.iter t).collect ∧
      (Tree.into_iter t).collect.length = (Tree.iter t).collect.length := by
  intro t
  have hview : (Tree.into_iter t).view = Tree.iter t := by
    simp [Tree.into_iter, Tree.iter, LeavesIntoIterator.new, LeavesIterator.new]
    have := LeavesIntoIterator.view_add_left t
      { current_value := none, right_nodes := [] }
    simpa [LeavesIntoIterator.view] using this
  have hc := LeavesIntoIterator.collect_view (Tree.into_iter t).measure
    (Tree.into_iter t) (le_refl _)
  rw [hview] at hc
  exact ⟨hc, by rw [hc]⟩

/-- Trees without any Empty variant in them. -/
def Tree.noEmpty : Tree → Bool
| .Empty _ => false
| .Leaf _ _ => true
| .Node _ left right => left.noEmpty && right.noEmpty

/-- Concatenated leaves of the trees on a pending stack, top first. -/
def flatLeaves : List Tree → List TreeLeafData
| [] => []
| t :: tl => t.leaves ++ flatLeaves tl

theorem Tree.size_pos (t : Tree) : 1 ≤ t.size := by
  cases t <;> simp [Tree.size] <;> omega

theorem collect_add_left :
    ∀ (n : Nat) (t : Tree) (c : Option TreeLeafData) (s : List Tree),
      t.size + stackSize s ≤ n → t.noEmpty = true →
      (∀ u ∈ s, u.noEmpty = true) →
      (LeavesIterator.add_left { current_value := c, right_nodes := s } t).collect
        = t.leaves ++ flatLeaves s := by
  intro n
  induction n with
  | zero =>
    intro t c s hle _ _
    have := t.size_pos
    omega
  | succ n ih =>
    intro t c s hle hne hall
    cases t with
    | Empty h => simp [Tree.noEmpty] at hne
    | Leaf h v =>
      rw [LeavesIterator.add_left]
      have hsome :
          (LeavesIterator.collect { current_value := some v, right_nodes := s })
            = v :: (LeavesIterator.next { current_value := some v, right_nodes := s }).2.collect :=
        LeavesIterator.collect_some _ v rfl
      rw [hsome]
      cases s with
      | nil =>
        rw [show (LeavesIterator.next { current_value := some v, right_nodes := ([] : List Tree) }).2
              = { current_value := none, right_nodes := ([] : List Tree) } from rfl]
        rw [LeavesIterator.collect_none _ rfl]
        simp [Tree.leaves, flatLeaves]
      | cons rest tl =>
        rw [show (LeavesIterator.next { current_value := some v, right_nodes := rest :: tl }).2
              = LeavesIterator.add_left { current_value := none, right_nodes := tl } rest from rfl]
        have hsz : rest.size + stackSize tl ≤ n := by
          simp [Tree.size, stackSize] at hle
          omega
        rw [ih rest none tl hsz (hall rest (by simp)) (fun u hu => hall u (by simp [hu]))]
        simp [Tree.leaves, flatLeaves]
    | Node h l r =>
      rw [LeavesIterator.add_left]
      have hsz : l.size + stackSize (r :: s) ≤ n := by
        simp [Tree.size, stackSize] at hle ⊢
        omega
      simp [Tree.noEmpty] at hne
      have hallr : ∀ u ∈ r :: s, u.noEmpty = true := by
        intro u hu
        rcases List.mem_cons.mp hu with h1 | h2
        · rw [h1]; exact hne.2
        · exact hall u h2
      rw [ih l c (r :: s) hsz hne.1 hallr]
      simp [Tree.leaves, flatLeaves]

/-- A tree with an Empty child to the left of a Leaf: the input on which the
borrowing traversal's first next() already returns none. -/
def gapTree : Tree := .Node [] (.Empty []) (.Leaf [] "a")

/-- A small tree with no Empty variant, used as witness input. -/
def sampleTree : Tree := .Node [] (.Leaf [1] "a") (.Leaf [2] "b")

/-- C1 counterexample: on gapTree the sequence the borrowing iterator
yields under the standard stop-at-none protocol is empty, while the tree
has one leaf, so the claimed equality with the left-to-right leaf sequence
and with get_count fails. -/
theorem C1_counterexample :
    ¬ ((Tree.iter gapTree).collect = gapTree.leaves ∧
       (Tree.iter gapTree).collect.length = gapTree.get_count) := by
  intro hcl
  have hstate : Tree.iter gapTree
      = { current_value := none, right_nodes := [Tree.Leaf [] "a"] } := rfl
  have hnilc : (Tree.iter gapTree).collect = [] := by
    rw [hstate]
    exact LeavesIterator.collect_none _ rfl
  rw [hnilc] at hcl
  have : gapTree.leaves = ["a"] := rfl
  rw [this] at hcl
  exact absurd hcl.1 (by simp)

/-- C1 (amended): for every tree in which the Empty variant occurs only as
the whole tree (never strictly inside a Node), the borrowing traversal
yields exactly the leaf values in left-to-right order, each exactly once,
and the length of the yielded sequence equals get_count. -/
theorem C1_traversal_amended (t : Tree)
    (h : t.noEmpty = true ∨ (∃ hh, t = Tree.Empty hh)) :
    (Tree.iter t).collect = t.leaves ∧
    (Tree.iter t).collect.length = t.get_count := by
  have hcol : (Tree.iter t).collect = t.leaves := by
    rcases h with hne | ⟨hh, hemp⟩
    · have := collect_add_left (t.size) t none [] (by simp [stackSize]) hne (by simp)
      simpa [Tree.iter, LeavesIterator.new, flatLeaves] using this
    · subst hemp
      have hstate : Tree.iter (Tree.Empty hh)
          = { current_value := none, right_nodes := ([] : List Tree) } := rfl
      rw [hstate, LeavesIterator.collect_none _ rfl]
      rfl
  refine ⟨hcol, ?_⟩
  rw [hcol, Tree.count_eq_leaves_length]

/-- Witness for C1 (amended): the hypothesis holds at the concrete two-leaf
tree and the traversal there yields its leaves with length get_count. -/
theorem C1_traversal_amended_witness :
    (sampleTree.noEmpty = true ∨ (∃ hh, sampleTree = Tree.Empty hh)) ∧
    ((Tree.iter sampleTree).collect = sampleTree.leaves ∧
     (Tree.iter sampleTree).collect.length = sampleTree.get_count) :=
  ⟨Or.inl (by decide), C1_traversal_amended sampleTree (Or.inl (by decide))⟩

/-- C10: on gapTree the first next() of the borrowing iterator returns
none while the following next() returns the leaf value "a"; the leaf
sequence is ["a"], so a stop-at-none consumer (the protocol collect) gets
the empty sequence and skips the leaf right of the Empty subtree. -/
theorem C10_iterator_not_fused :
    (Tree.iter gapTree).next.1 = none ∧
    ((Tree.iter gapTree).next.2).next.1 = some "a" ∧
    gapTree.leaves = ["a"] ∧
    (Tree.iter gapTree).collect = [] := by
  refine ⟨rfl, rfl, rfl, ?_⟩
  have hstate : Tree.iter gapTree
      = { current_value := none, right_nodes := [Tree.Leaf [] "a"] } := rfl
  rw [hstate]
  exact LeavesIterator.collect_none _ rfl

/-- Height budget for a pending stack, top of stack first: each entry's
height is below the running budget, which grows by one per entry towards
the bottom of the stack. -/
def goodStack : Nat → List Tree → Prop
| _, [] => True
| b, t :: tl => t.get_height < b ∧ goodStack (b + 1) tl

theorem goodStack_length (s : List Tree) (b H : Nat)
    (hg : goodStack b s) (hle : b + s.length ≤ H + 1) : s.length ≤ H := by
  cases s with
  | nil => simp
  | cons t tl =>
    have hb : t.get_height < b := hg.1
    simp at hle ⊢
    omega

theorem add_left_goodStack (t : Tree) :
    ∀ (c : Option TreeLeafData) (s : List Tree) (b : Nat),
      goodStack b s → t.get_height < b →
      ∃ b2, goodStack b2
          (LeavesIterator.add_left { current_value := c, right_nodes := s } t).right_nodes ∧
        b2 + (LeavesIterator.add_left { current_value := c, right_nodes := s } t).right_nodes.length
          ≤ b + s.length := by
  induction t with
  | Empty h =>
    intro c s b hg ht
    exact ⟨b, hg, le_refl _⟩
  | Leaf h v =>
    intro c s b hg ht
    exact ⟨b, hg, le_refl _⟩
  | Node h l r ihl ihr =>
    intro c s b hg ht
    cases b with
    | zero => omega
    | succ b1 =>
      have hth : l.get_height ≤ b1 - 1 ∧ r.get_height ≤ b1 - 1 ∧ 1 ≤ b1 := by
        have hl := le_max_left l.get_height r.get_height
        have hr := le_max_right l.get_height r.get_height
        simp [Tree.get_height] at ht
        omega
      have hgr : goodStack b1 (r :: s) := by
        refine ⟨by omega, ?_⟩
        simpa using hg
      have hll : l.get_height < b1 := by omega
      obtain ⟨b2, hg2, hle2⟩ := ihl c (r :: s) b1 hgr hll
      refine ⟨b2, ?_, ?_⟩
      · simpa [LeavesIterator.add_left] using hg2
      · have : b2 + (LeavesIterator.add_left
            { current_value := c, right_nodes := r :: s } l).right_nodes.length
            ≤ b1 + (r :: s).length := hle2
        simp [LeavesIterator.add_left] at this ⊢
        omega

/-- Invariant tying an iterator state to the height of the tree it was
started on: some budget certifies the pending stack. -/
def iterInv (H : Nat) (it : LeavesIterator) : Prop :=
  ∃ b, goodStack b it.right_nodes ∧ b + it.right_nodes.length ≤ H + 1

theorem iterInv_new (t : Tree) : iterInv t.get_height (LeavesIterator.new t) := by
  obtain ⟨b2, hg, hle⟩ := add_left_goodStack t none [] (t.get_height + 1)
    trivial (Nat.lt_succ_self _)
  exact ⟨b2, hg, by simpa [LeavesIterator.new] using hle⟩

theorem iterInv_next (H : Nat) (it : LeavesIterator)
    (h : iterInv H it) : iterInv H it.next.2 := by
  obtain ⟨b, hg, hle⟩ := h
  cases hs : it.right_nodes with
  | nil =>
    refine ⟨H + 1, ?_, ?_⟩
    · simp [LeavesIterator.next, hs, goodStack]
    · simp [LeavesIterator.next, hs]
  | cons rest tl =>
    rw [hs] at hg hle
    have hg1 : rest.get_height < b := hg.1
    have hg2 : goodStack (b + 1) tl := hg.2
    obtain ⟨b2, hgx, hlex⟩ := add_left_goodStack rest none tl (b + 1) hg2 (by omega)
    refine ⟨b2, ?_, ?_⟩
    · simpa [LeavesIterator.next, hs] using hgx
    · have := hlex
      simp [LeavesIterator.next, hs] at this ⊢
      simp at hle
      omega

/-- States of the borrowing iterator reachable from initializing it on a
tree and repeatedly calling next. -/
inductive Reach (t : Tree) : LeavesIterator → Prop where
| init : Reach t (LeavesIterator.new t)
| step (it : LeavesIterator) : Reach t it → Reach t it.next.2

theorem reach_iterInv (t : Tree) (it : LeavesIterator)
    (h : Reach t it) : iterInv t.get_height it := by
  induction h with
  | init => exact iterInv_new t
  | step it2 h2 ih => exact iterInv_next t.get_height it2 ih

/-- C9: in every iterator state reachable from initializing the borrowing
traversal on a tree and repeatedly calling next, the pending right-sibling
stack holds at most get_height entries. -/
theorem C9_stack_bounded_by_height :
    ∀ (t : Tree) (it : LeavesIterator), Reach t it →
      it.right_nodes.length ≤ t.get_height := by
  intro t it h
  obtain ⟨b, hg, hle⟩ := reach_iterInv t it h
  exact goodStack_length it.right_nodes b t.get_height hg hle

/-- Witness for C9: the freshly initialized state on the concrete two-leaf
tree is reachable and its stack length is within the height bound. -/
theorem C9_stack_bounded_by_height_witness :
    Reach sampleTree (LeavesIterator.new sampleTree) ∧
    (LeavesIterator.new sampleTree).right_nodes.length ≤ sampleTree.get_height :=
  ⟨Reach.init, C9_stack_bounded_by_height sampleTree _ Reach.init⟩

end Merkle
